import Mathlib

/-
Shallow embedding of the collection-graph core of
`source/blender/blenkernel/intern/collection.c`.

Collections and objects are identified by natural numbers.  The global
store of collection nodes (the `Main` database plus the per-collection
link tables) is a `CState`: for every collection id it records the
child-edge list, the parent-back-reference list, the direct member
(object) list, the flag bits, the cached flattened object list and its
validity bit, and the external reference counts.  Objects carry a
`dup_group` field (the "instances this collection" relation).

The C functions are translated one by one.  Recursive C functions that
walk the graph (`BKE_collection_find_cycle`,
`collection_find_child_recursive`, `collection_object_cache_free`,
`collection_object_cache_fill`, `scene_collection_callback`) terminate
because the graph is acyclic; in Lean they take an explicit recursion
budget.  Call sites inside other translated functions pass
`fuel st = st.nodes.length + 1`, which is shown below to be enough on
every acyclic, closed store, so on the states the theorems quantify over
the budgeted functions compute exactly what the C functions compute.
-/

namespace CollectionSpec

/-- Restriction/identity flag bits of a collection
(`COLLECTION_RESTRICT_VIEW/SELECT/RENDER`, `COLLECTION_IS_MASTER`),
modelled field-wise instead of as a C bitmask.  The
`COLLECTION_HAS_OBJECT_CACHE` bit is kept separately in
`CState.cacheValid`. -/
structure ColFlags where
  restrictView : Bool
  restrictSelect : Bool
  restrictRender : Bool
  isMaster : Bool
deriving DecidableEq, Repr

/-- The three inheritable restriction bits, as propagated by
`collection_object_cache_fill`'s `parent_restrict` argument.  The C code
ORs whole flag words; only these three bits are ever read from the
result, so the field-wise OR is observationally identical. -/
structure Restrict where
  view : Bool
  select : Bool
  render : Bool
deriving DecidableEq, Repr

def ror (a b : Restrict) : Restrict :=
  ⟨a.view || b.view, a.select || b.select, a.render || b.render⟩

def restrictOf (f : ColFlags) : Restrict :=
  ⟨f.restrictView, f.restrictSelect, f.restrictRender⟩

/-- An entry of the flattened object cache (C `Base`), with the flag
bits `BASE_VISIBLED`/`BASE_VISIBLE_VIEWPORT`/`BASE_SELECTABLED`/
`BASE_VISIBLE_RENDER` modelled field-wise. -/
structure Base where
  object : Nat
  visibled : Bool
  visibleViewport : Bool
  selectabled : Bool
  visibleRender : Bool
deriving DecidableEq, Repr

/-- A fresh `Base` as built by `collection_object_cache_fill` from the
accumulated restriction bits (`MEM_callocN` zeroes every flag, then the
unrestricted bits are set). -/
def mkBase (ob : Nat) (r : Restrict) : Base :=
  { object := ob
    visibled := !r.view
    visibleViewport := !r.view
    selectabled := !r.view && !r.select
    visibleRender := !r.render }

/-- The collection store: all per-collection data of the C `Collection`
struct that the verified operations touch, plus the per-object
`dup_group` pointer and the external use counts. -/
structure CState where
  nodes : List Nat
  children : Nat → List Nat
  parents : Nat → List Nat
  gobject : Nat → List Nat
  dup_group : Nat → Option Nat
  colFlag : Nat → ColFlags
  cacheValid : Nat → Bool
  object_cache : Nat → List Base
  cusers : Nat → Nat
  ousers : Nat → Nat

/-- Recursion budget that is sufficient for every graph walk on an
acyclic closed store: one more than the number of collection nodes. -/
def fuelOf (st : CState) : Nat := st.nodes.length + 1

/-- One step of a successor function `f` (e.g. `CState.children` or
`CState.parents`): `y` is listed among the successors of `x`. -/
def FStep (f : Nat → List Nat) (x y : Nat) : Prop := y ∈ f x

/-- A concrete walk from `a` to `b` along `f`, recording the visited
nodes (`a` first, `b` last). -/
inductive FPath (f : Nat → List Nat) : Nat → Nat → List Nat → Prop where
  | single (a : Nat) : FPath f a a [a]
  | cons {a b c : Nat} {l : List Nat} :
      b ∈ f a → FPath f b c l → FPath f a c (a :: l)

/-! ## Translated functions -/

/-- C `collection_find_child` (`BLI_findptr` on the child list), used
only for its NULL/non-NULL outcome here. -/
def collection_find_child (st : CState) (parent collection : Nat) : Bool :=
  decide (collection ∈ st.children parent)

/-- C `collection_find_parent` (`BLI_findptr` on the parent list). -/
def collection_find_parent (st : CState) (child collection : Nat) : Bool :=
  decide (collection ∈ st.parents child)

/-- C `BKE_collection_find_cycle`: is `collection` reachable (including
equality) from `new_ancestor` by walking parent-back-references? -/
def BKE_collection_find_cycle (st : CState) :
    Nat → Nat → Nat → Bool
  | 0, _, _ => false
  | n + 1, new_ancestor, collection =>
    collection == new_ancestor ||
      (st.parents new_ancestor).any fun parent =>
        BKE_collection_find_cycle st n parent collection

/-- C `collection_find_child_recursive`: is `collection` a strict
descendant of `parent` (reachable by one or more child-edges)? -/
def collection_find_child_recursive (st : CState) :
    Nat → Nat → Nat → Bool
  | 0, _, _ => false
  | n + 1, parent, collection =>
    (st.children parent).any fun child =>
      child == collection ||
        collection_find_child_recursive st n child collection

/-- C `collection_object_cache_free` (the static recursive one): clear
the collection's cache and validity flag, then recurse into every
parent-back-reference target. -/
def collection_object_cache_free (st : CState) :
    Nat → Nat → CState
  | 0, _ => st
  | n + 1, collection =>
    let st1 : CState :=
      { st with
        cacheValid := Function.update st.cacheValid collection false
        object_cache := Function.update st.object_cache collection [] }
    (st1.parents collection).foldl
      (fun s parent => collection_object_cache_free s n parent) st1

/-- C `BKE_collection_object_cache_free` (public wrapper). -/
def BKE_collection_object_cache_free (st : CState) (collection : Nat) : CState :=
  collection_object_cache_free st (fuelOf st) collection

/-- Does the flattened list already contain a base for object `ob`?
This is the `BLI_findptr` duplicate test of the cache fill. -/
def hasBase (lb : List Base) (ob : Nat) : Bool :=
  lb.any fun b => b.object == ob

/-- Body of the member loop of `collection_object_cache_fill`: append a
fresh base for `ob` unless one is already present. -/
def cacheStep (cr : Restrict) (l : List Base) (ob : Nat) : List Base :=
  if hasBase l ob then l else l ++ [mkBase ob cr]

/-- C `collection_object_cache_fill`: depth-first fill of the flattened
base list `lb`, deduplicating by object identity and combining
restriction bits down the hierarchy. -/
def collection_object_cache_fill (st : CState) :
    Nat → List Base → Nat → Restrict → List Base
  | 0, lb, _, _ => lb
  | n + 1, lb, collection, parent_restrict =>
    let child_restrict := ror (restrictOf (st.colFlag collection)) parent_restrict
    let lb1 := (st.gobject collection).foldl (cacheStep child_restrict) lb
    (st.children collection).foldl
      (fun l child => collection_object_cache_fill st n l child child_restrict) lb1

/-- C `BKE_collection_object_cache_get`: return the cached flattened
list, filling it first when the validity flag is unset.  The process
executes single-threadedly here, so the mutex and the double-checked
flag test collapse into one test. -/
def BKE_collection_object_cache_get (st : CState) (collection : Nat) :
    CState × List Base :=
  if st.cacheValid collection then (st, st.object_cache collection)
  else
    let filled := collection_object_cache_fill st (fuelOf st)
      (st.object_cache collection) collection ⟨false, false, false⟩
    ({ st with
        object_cache := Function.update st.object_cache collection filled
        cacheValid := Function.update st.cacheValid collection true },
      filled)

/-- C `BKE_main_collection_sync`.  Modelled from the spec: the view-layer
sync is an external fire-and-forget request that does not change the
collection graph, so it is the identity on the store. -/
def BKE_main_collection_sync (st : CState) : CState := st

/-- C `BKE_collection_is_in_scene`: the collection is the master or has
an ancestor that is. -/
def BKE_collection_is_in_scene (st : CState) :
    Nat → Nat → Bool
  | 0, _ => false
  | n + 1, collection =>
    (st.colFlag collection).isMaster ||
      (st.parents collection).any fun parent =>
        BKE_collection_is_in_scene st n parent

/-- C `collection_child_add`.  The `flag & LIB_ID_CREATE_NO_MAIN` test
is modelled by the boolean `no_main` (all call sites verified here pass
flag `0`, i.e. `false`). -/
def collection_child_add (st : CState) (parent collection : Nat)
    (no_main add_us : Bool) : CState × Bool :=
  if collection_find_child st parent collection then (st, false)
  else if BKE_collection_find_cycle st (fuelOf st) parent collection then (st, false)
  else
    let ch1 := Function.update st.children parent (st.children parent ++ [collection])
    let st1 : CState := { st with children := ch1 }
    let pa2 := Function.update st1.parents collection (st1.parents collection ++ [parent])
    let st2 : CState := if no_main then st1 else { st1 with parents := pa2 }
    let us3 := Function.update st2.cusers collection (st2.cusers collection + 1)
    let st3 : CState := if add_us then { st2 with cusers := us3 } else st2
    (collection_object_cache_free st3 (fuelOf st3) parent, true)

/-- C `collection_child_remove`.  `BLI_freelinkN` on the node found by
`BLI_findptr` removes the first matching link, i.e. `List.erase`. -/
def collection_child_remove (st : CState) (parent collection : Nat) :
    CState × Bool :=
  if collection_find_child st parent collection then
    let pa1 := Function.update st.parents collection ((st.parents collection).erase parent)
    let st1 : CState := { st with parents := pa1 }
    let ch2 := Function.update st1.children parent ((st1.children parent).erase collection)
    let st2 : CState := { st1 with children := ch2 }
    let us3 := Function.update st2.cusers collection (st2.cusers collection - 1)
    let st3 : CState := { st2 with cusers := us3 }
    (collection_object_cache_free st3 (fuelOf st3) parent, true)
  else (st, false)

/-- C `BKE_collection_child_add` (public wrapper, flag `0`, `add_us`). -/
def BKE_collection_child_add (st : CState) (parent child : Nat) :
    CState × Bool :=
  let r := collection_child_add st parent child false true
  if r.2 then (BKE_main_collection_sync r.1, true) else (r.1, false)

/-- C `BKE_collection_child_remove` (public wrapper). -/
def BKE_collection_child_remove (st : CState) (parent child : Nat) :
    CState × Bool :=
  let r := collection_child_remove st parent child
  if r.2 then (BKE_main_collection_sync r.1, true) else (r.1, false)

/-- C `collection_object_add`.  The `flag &
LIB_ID_CREATE_NO_USER_REFCOUNT` test is modelled by `no_refcount`
(call sites verified here pass flag `0`). -/
def collection_object_add (st : CState) (collection ob : Nat)
    (no_refcount add_us : Bool) : CState × Bool :=
  let core : CState × Bool :=
    if decide (ob ∈ st.gobject collection) then (st, false)
    else
      let g1 := Function.update st.gobject collection (st.gobject collection ++ [ob])
      let st1 : CState := { st with gobject := g1 }
      let st2 := BKE_collection_object_cache_free st1 collection
      let us3 := Function.update st2.ousers ob (st2.ousers ob + 1)
      let st3 : CState := if add_us && !no_refcount then { st2 with ousers := us3 } else st2
      (st3, true)
  match st.dup_group ob with
  | some dup =>
    if collection_find_child_recursive st (fuelOf st) collection dup then
      (st, false)
    else core
  | none => core

/-- C `collection_object_remove`.  `BKE_libblock_free_us` (when
`free_us`) and `id_us_min` both decrement the use count here; the
eventual freeing of the object datablock is external. -/
def collection_object_remove (st : CState) (collection ob : Nat)
    (_free_us : Bool) : CState × Bool :=
  if decide (ob ∈ st.gobject collection) then
    let g1 := Function.update st.gobject collection ((st.gobject collection).erase ob)
    let st1 : CState := { st with gobject := g1 }
    let st2 := BKE_collection_object_cache_free st1 collection
    let us3 := Function.update st2.ousers ob (st2.ousers ob - 1)
    let st3 : CState := { st2 with ousers := us3 }
    (st3, true)
  else (st, false)

/-- C `BKE_collection_object_add` (public wrapper).  Identifiers are
total naturals here, so the C NULL-argument guard has no counterpart. -/
def BKE_collection_object_add (st : CState) (collection ob : Nat) :
    CState × Bool :=
  let r := collection_object_add st collection ob false true
  if r.2 then
    if BKE_collection_is_in_scene r.1 (fuelOf r.1) collection then
      (BKE_main_collection_sync r.1, true)
    else (r.1, true)
  else (r.1, false)

/-- C `BKE_collection_object_remove` (public wrapper). -/
def BKE_collection_object_remove (st : CState) (collection ob : Nat)
    (free_us : Bool) : CState × Bool :=
  let r := collection_object_remove st collection ob free_us
  if r.2 then
    if BKE_collection_is_in_scene r.1 (fuelOf r.1) collection then
      (BKE_main_collection_sync r.1, true)
    else (r.1, true)
  else (r.1, false)

/-- C `scene_collection_callback` specialised to the array-building
callback: the depth-first emission order of the all-collections
iterator (node first, then each child subtree in order). -/
def scene_collection_callback (st : CState) :
    Nat → Nat → List Nat
  | 0, _ => []
  | n + 1, collection =>
    collection ::
      (st.children collection).flatMap fun child =>
        scene_collection_callback st n child

/-- C `scene_collections_array` / `BKE_scene_collections_iterator`:
the snapshot array the iterator walks, starting from the scene's master
collection. -/
def scene_collections_array (st : CState) (master : Nat) : List Nat :=
  scene_collection_callback st (fuelOf st) master

/-- C `scene_collections_object_remove`: remove the object from every
collection of the scene snapshot except `skip`
(`BKE_scene_remove_rigidbody_object` is external and graph-neutral). -/
def scene_collections_object_remove (st : CState) (master ob : Nat)
    (free_us : Bool) (skip : Option Nat) : CState × Bool :=
  let r := (scene_collections_array st master).foldl
    (fun (acc : CState × Bool) collection =>
      if skip = some collection then acc
      else
        let r1 := collection_object_remove acc.1 collection ob free_us
        (r1.1, acc.2 || r1.2))
    (st, false)
  (BKE_main_collection_sync r.1, r.2)

/-- C `BKE_collection_object_move`.  The scene argument is represented
by its master collection id. -/
def BKE_collection_object_move (st : CState) (master dst : Nat)
    (src : Option Nat) (ob : Nat) : CState :=
  match src with
  | some s =>
    let r := BKE_collection_object_add st dst ob
    if r.2 then (BKE_collection_object_remove r.1 s ob false).1 else r.1
  | none =>
    let r := BKE_collection_object_add st dst ob
    (scene_collections_object_remove r.1 master ob false (some dst)).1

/-! ### Sibling-select traversal (`collection_objects_select`) -/

/-- A view-layer base as consulted by `collection_objects_select`
(`BKE_view_layer_base_find` result): selection state per object. -/
structure VLBase where
  object : Nat
  selected : Bool
  selectabled : Bool
deriving DecidableEq, Repr

/-- Selection update of the first base matching `ob` (the view layer
holds one base per object), mirroring the member loop body of
`collection_objects_select`.  Returns the updated list and whether a
flag changed. -/
def vl_select_ob (deselect : Bool) :
    List VLBase → Nat → List VLBase × Bool
  | [], _ => ([], false)
  | b :: rest, ob =>
    if b.object == ob then
      if deselect then
        if b.selected then ({ b with selected := false } :: rest, true)
        else (b :: rest, false)
      else
        if b.selectabled && !b.selected then
          ({ b with selected := true } :: rest, true)
        else (b :: rest, false)
    else
      let r := vl_select_ob deselect rest ob
      (b :: r.1, r.2)

/-- C `collection_objects_select`, with explicit recursion budget
(`none` = the budget ran out, i.e. the C recursion is still running).
The child loop reproduces the source exactly: it iterates over
`collection`'s children but recurses on `collection` itself. -/
def collection_objects_select (st : CState) :
    Nat → List VLBase → Nat → Bool → Option (List VLBase × Bool)
  | 0, _, _, _ => none
  | n + 1, vl, collection, deselect =>
    if (st.colFlag collection).restrictSelect then some (vl, false)
    else
      let m := (st.gobject collection).foldl
        (fun (acc : List VLBase × Bool) ob =>
          let r := vl_select_ob deselect acc.1 ob
          (r.1, acc.2 || r.2)) (vl, false)
      (st.children collection).foldl
        (fun acc _child =>
          Option.bind acc fun vc =>
            Option.map (fun vc2 => (vc2.1, vc.2 || vc2.2))
              (collection_objects_select st n vc.1 collection deselect))
        (some m)

/-! ### Scene objects iterator -/

/-- Cursor state of `BKE_scene_objects_iterator`: the visited set (a
pointer `GSet`, modelled as a list), the remaining member links of the
current collection (`cob_next`, `[]` for NULL), the collections
snapshot with its cursor/validity, and the emitted object with the
outer validity flag. -/
structure SObjState where
  visited : List Nat
  cob_next : List Nat
  cols : List Nat
  colcur : Nat
  colcurrent : Nat
  colvalid : Bool
  current : Nat
  valid : Bool
deriving Repr

/-- C `BKE_scene_collections_iterator_next` acting on the embedded
cursor: `++data->cur` always increments; `current` keeps its old value
when the array is exhausted. -/
def scoll_next (s : SObjState) : SObjState :=
  if s.colcur + 1 < s.cols.length then
    { s with colcur := s.colcur + 1, colcurrent := s.cols.getD (s.colcur + 1) 0 }
  else
    { s with colcur := s.colcur + 1, colvalid := false }

/-- C `object_base_unique`: first member link from `cob` whose object is
not yet in the visited set; that object is inserted.  Returns the
updated set and, on success, the object with the remaining links. -/
def object_base_unique :
    List Nat → List Nat → List Nat × Option (Nat × List Nat)
  | gs, [] => (gs, none)
  | gs, ob :: rest =>
    if ob ∈ gs then object_base_unique gs rest
    else (ob :: gs, some (ob, rest))

/-- The do-while loop of `BKE_scene_objects_iterator_next`: scan the
current collection (each loop body runs before the validity test), then
advance; the budget passed by `sobj_next` covers the remaining
snapshot. -/
def sobj_scan (st : CState) :
    Nat → SObjState → SObjState
  | 0, s => s
  | n + 1, s =>
    let r := object_base_unique s.visited (st.gobject s.colcurrent)
    match r.2 with
    | some (ob, rest) =>
      { s with visited := r.1, cob_next := rest, current := ob }
    | none =>
      let s1 := scoll_next { s with visited := r.1 }
      if s1.colvalid then sobj_scan st n s1 else { s1 with valid := false }

/-- C `BKE_scene_objects_iterator_next`.  `data->cob_next` being NULL
and `object_base_unique` returning NULL from an empty list are
indistinguishable (both leave the set unchanged and yield no object),
so the C ternary collapses into one `object_base_unique` call. -/
def sobj_next (st : CState) (s : SObjState) : SObjState :=
  let r := object_base_unique s.visited s.cob_next
  match r.2 with
  | some (ob, rest) =>
    { s with visited := r.1, cob_next := rest, current := ob }
  | none =>
    let s1 := scoll_next { s with visited := r.1 }
    sobj_scan st (s1.cols.length + 2) s1

/-- C `BKE_scene_objects_iterator_begin`: zero-initialised cursor over
the snapshot; when the first collection has members, its first object
becomes current directly (without touching the visited set or
`cob_next`), otherwise one `next` step runs. -/
def sobj_begin (st : CState) (master : Nat) : SObjState :=
  let cols := scene_collections_array st master
  let first := cols.getD 0 0
  let s0 : SObjState :=
    { visited := [], cob_next := [], cols := cols, colcur := 0
      colcurrent := first, colvalid := true, current := 0, valid := true }
  match st.gobject first with
  | ob :: _ => { s0 with current := ob }
  | [] => sobj_next st s0

/-- Driver: the sequence of objects the iterator protocol emits (begin,
then next until invalid), up to a step budget. -/
def sobj_run (st : CState) : Nat → SObjState → List Nat
  | 0, _ => []
  | n + 1, s =>
    if s.valid then s.current :: sobj_run st n (sobj_next st s) else []

/-! ## Invariants and operations for the preservation theorem -/

/-- The mirror invariant of the spec: every child-edge (P→C) has exactly
one parent-back-reference (C→P), and vice versa. -/
def ExactMirror (st : CState) : Prop :=
  (∀ p c, c ∈ st.children p → List.count p (st.parents c) = 1) ∧
  (∀ c p, p ∈ st.parents c → List.count c (st.children p) = 1)

/-- The link tables only mention stored collection nodes. -/
def ClosedGraph (st : CState) : Prop :=
  ∀ x ∈ st.nodes, (∀ y ∈ st.children x, y ∈ st.nodes) ∧
    (∀ y ∈ st.parents x, y ∈ st.nodes)

/-- Acyclicity of the child relation. -/
def AcyclicChildren (st : CState) : Prop :=
  ∀ x, ¬ Relation.TransGen (FStep st.children) x x

/-- The data-model invariant of the spec. -/
def Inv (st : CState) : Prop :=
  ExactMirror st ∧ ClosedGraph st ∧ AcyclicChildren st

/-- A structural edit through the public child-link API. -/
inductive Op where
  | addChild (parent child : Nat)
  | removeChild (parent child : Nat)
deriving DecidableEq, Repr

def Op.parent : Op → Nat
  | .addChild p _ => p
  | .removeChild p _ => p

def Op.child : Op → Nat
  | .addChild _ c => c
  | .removeChild _ c => c

/-- Apply one public child-link call (its state effect; failed calls are
no-ops by construction). -/
def applyOp (st : CState) : Op → CState
  | .addChild p c => (BKE_collection_child_add st p c).1
  | .removeChild p c => (BKE_collection_child_remove st p c).1

def applyOps (st : CState) (ops : List Op) : CState :=
  ops.foldl applyOp st

/-- All operation arguments name stored collections. -/
def OpsValid (st : CState) (ops : List Op) : Prop :=
  ∀ op ∈ ops, op.parent ∈ st.nodes ∧ op.child ∈ st.nodes

/-! ## Concrete stores used as witnesses and counterexamples -/

/-- Default (all-clear) collection flags. -/
def noFlags : ColFlags := ⟨false, false, false, false⟩

/-- Two collections `0 → 1`; object `5` is a direct member of `0`. -/
def st0 : CState :=
  { nodes := [0, 1]
    children := fun n => if n = 0 then [1] else []
    parents := fun n => if n = 1 then [0] else []
    gobject := fun n => if n = 0 then [5] else []
    dup_group := fun _ => none
    colFlag := fun _ => noFlags
    cacheValid := fun _ => false
    object_cache := fun _ => []
    cusers := fun _ => 0
    ousers := fun _ => 0 }

/-- Diamond: master `0` with children `1, 2`, both of which have child
`3`; the collection graph is acyclic but `3` has two parents. -/
def stD : CState :=
  { nodes := [0, 1, 2, 3]
    children := fun n => if n = 0 then [1, 2] else if n = 1 then [3] else if n = 2 then [3] else []
    parents := fun n => if n = 1 then [0] else if n = 2 then [0] else if n = 3 then [1, 2] else []
    gobject := fun _ => []
    dup_group := fun _ => none
    colFlag := fun n => { noFlags with isMaster := n = 0 }
    cacheValid := fun _ => false
    object_cache := fun _ => []
    cusers := fun _ => 0
    ousers := fun _ => 0 }

/-- A single collection `0` with no members; object `5` instances
collection `0` itself (`dup_group 5 = some 0`). -/
def stC4 : CState :=
  { nodes := [0]
    children := fun _ => []
    parents := fun _ => []
    gobject := fun _ => []
    dup_group := fun n => if n = 5 then some 0 else none
    colFlag := fun _ => noFlags
    cacheValid := fun _ => false
    object_cache := fun _ => []
    cusers := fun _ => 0
    ousers := fun _ => 0 }

/-- A scene consisting only of its master collection `0`, which has the
single direct member object `5`. -/
def stM : CState :=
  { nodes := [0]
    children := fun _ => []
    parents := fun _ => []
    gobject := fun n => if n = 0 then [5] else []
    dup_group := fun _ => none
    colFlag := fun n => { noFlags with isMaster := n = 0 }
    cacheValid := fun _ => false
    object_cache := fun _ => []
    cusers := fun _ => 0
    ousers := fun _ => 0 }

/-! ## Generic fold and path lemmas -/

theorem foldl_pres {σ α : Type _} (P : σ → Prop) (f : σ → α → σ)
    (h : ∀ s a, P s → P (f s a)) :
    ∀ (l : List α) (s : σ), P s → P (List.foldl f s l) := by
  intro l
  induction l with
  | nil => intro s hs; exact hs
  | cons a t ih => intro s hs; exact ih (f s a) (h s a hs)

theorem foldl_point {σ α : Type _} [DecidableEq α] (P Q : σ → Prop)
    (f : σ → α → σ) (q : α)
    (hQ : ∀ s a, Q s → Q (f s a)) (hP : ∀ s a, P s → P (f s a))
    (hstep : ∀ s, Q s → P (f s q)) :
    ∀ (l : List α) (s : σ), Q s → q ∈ l → P (List.foldl f s l) := by
  intro l
  induction l with
  | nil => intro s _ hm; cases hm
  | cons a t ih =>
    intro s hs hm
    by_cases hqa : a = q
    · subst hqa
      exact foldl_pres P f hP t (f s a) (hstep s hs)
    · have hm' : q ∈ t := by
        cases hm with
        | head => exact absurd rfl hqa
        | tail _ h => exact h
      exact ih (f s a) (hQ s a hs) hm'

theorem fpath_rtg {f : Nat → List Nat} {a b : Nat} {l : List Nat}
    (h : FPath f a b l) : Relation.ReflTransGen (FStep f) a b := by
  induction h with
  | single a => exact Relation.ReflTransGen.refl
  | cons hstep _ ih => exact Relation.ReflTransGen.head hstep ih

theorem rtg_fpath {f : Nat → List Nat} {a b : Nat}
    (h : Relation.ReflTransGen (FStep f) a b) : ∃ l, FPath f a b l := by
  induction h using Relation.ReflTransGen.head_induction_on with
  | refl => exact ⟨[b], FPath.single b⟩
  | head hstep _ ih =>
    obtain ⟨l, hl⟩ := ih
    exact ⟨_ :: l, FPath.cons hstep hl⟩

theorem fpath_mem_rtg {f : Nat → List Nat} {a b x : Nat} {l : List Nat}
    (h : FPath f a b l) (hx : x ∈ l) :
    Relation.ReflTransGen (FStep f) a x := by
  induction h with
  | single a =>
    cases hx with
    | head => exact Relation.ReflTransGen.refl
    | tail _ h => cases h
  | cons hstep _ ih =>
    cases hx with
    | head => exact Relation.ReflTransGen.refl
    | tail _ hx' => exact Relation.ReflTransGen.head hstep (ih hx')

theorem fpath_nodup {f : Nat → List Nat} {a b : Nat} {l : List Nat}
    (hacyc : ∀ z, ¬ Relation.TransGen (FStep f) z z)
    (h : FPath f a b l) : l.Nodup := by
  induction h with
  | single a => simp
  | cons hstep hp ih =>
    rename_i a' b' c' l'
    refine List.nodup_cons.mpr ⟨?_, ih⟩
    intro hmem
    have hba : Relation.ReflTransGen (FStep f) b' a' := fpath_mem_rtg hp hmem
    rcases Relation.reflTransGen_iff_eq_or_transGen.mp hba with heq | htg
    · subst heq; exact hacyc a' (Relation.TransGen.single hstep)
    · exact hacyc a' (Relation.TransGen.head hstep htg)

theorem fpath_subset {f : Nat → List Nat} {ns : List Nat}
    (hc : ∀ x ∈ ns, ∀ y ∈ f x, y ∈ ns) {a b : Nat} {l : List Nat}
    (ha : a ∈ ns) (h : FPath f a b l) : ∀ x ∈ l, x ∈ ns := by
  induction h with
  | single a => intro x hx; cases hx with
    | head => exact ha
    | tail _ h => cases h
  | cons hstep hp ih =>
    rename_i a' b' c' l'
    intro x hx
    cases hx with
    | head => exact ha
    | tail _ hx' => exact ih (hc a' ha b' hstep) x hx'

theorem nodup_length_le {l ns : List Nat} (hn : l.Nodup)
    (hs : ∀ x ∈ l, x ∈ ns) : l.length ≤ ns.length := by
  have h1 : l.toFinset.card = l.length := List.toFinset_card_of_nodup hn
  have h2 : l.toFinset ⊆ ns.toFinset := by
    intro x hx
    exact List.mem_toFinset.mpr (hs x (List.mem_toFinset.mp hx))
  calc l.length = l.toFinset.card := h1.symm
    _ ≤ ns.toFinset.card := Finset.card_le_card h2
    _ ≤ ns.length := List.toFinset_card_le ns

theorem rtg_fpath_short {f : Nat → List Nat} {ns : List Nat}
    (hacyc : ∀ z, ¬ Relation.TransGen (FStep f) z z)
    (hc : ∀ x ∈ ns, ∀ y ∈ f x, y ∈ ns) {a b : Nat} (ha : a ∈ ns)
    (h : Relation.ReflTransGen (FStep f) a b) :
    ∃ l, FPath f a b l ∧ l.length ≤ ns.length := by
  obtain ⟨l, hl⟩ := rtg_fpath h
  exact ⟨l, hl, nodup_length_le (fpath_nodup hacyc hl) (fpath_subset hc ha hl)⟩

theorem rtg_swap_of_steps {r r' : Nat → Nat → Prop}
    (h : ∀ x y, r x y → r' y x) {a b : Nat}
    (hr : Relation.ReflTransGen r a b) : Relation.ReflTransGen r' b a := by
  induction hr with
  | refl => exact Relation.ReflTransGen.refl
  | tail _ hstep ih => exact Relation.ReflTransGen.head (h _ _ hstep) ih

/-- Every reflexive-transitive chain of an extended relation `r ∪ (p,c)`
either stays in `r`, or factors through the new edge. -/
theorem rtg_insert_cases {r : Nat → Nat → Prop} {p c : Nat}
    (hnr : ¬ Relation.ReflTransGen r c p) {x y : Nat}
    (h : Relation.ReflTransGen (fun u v => r u v ∨ (u = p ∧ v = c)) x y) :
    Relation.ReflTransGen r x y ∨
      (Relation.ReflTransGen r x p ∧ Relation.ReflTransGen r c y) := by
  induction h using Relation.ReflTransGen.head_induction_on with
  | refl => exact Or.inl Relation.ReflTransGen.refl
  | head hstep _ ih =>
    rename_i u v _
    rcases hstep with hr | ⟨hup, hvc⟩
    · rcases ih with h1 | ⟨h1, h2⟩
      · exact Or.inl (Relation.ReflTransGen.head hr h1)
      · exact Or.inr ⟨Relation.ReflTransGen.head hr h1, h2⟩
    · subst hup; subst hvc
      rcases ih with h1 | ⟨h1, h2⟩
      · exact Or.inr ⟨Relation.ReflTransGen.refl, h1⟩
      · exact absurd h1 hnr

/-- Adding an edge (p,c) to an acyclic relation keeps it acyclic as long
as `p` is not reachable from `c`. -/
theorem acyclic_insert {r : Nat → Nat → Prop} {p c : Nat}
    (hacyc : ∀ z, ¬ Relation.TransGen r z z)
    (hnr : ¬ Relation.ReflTransGen r c p) :
    ∀ z, ¬ Relation.TransGen (fun u v => r u v ∨ (u = p ∧ v = c)) z z := by
  intro z hz
  obtain ⟨w, hzw, hwz⟩ := Relation.TransGen.head'_iff.mp hz
  rcases rtg_insert_cases hnr hwz with hwz' | ⟨hwp, hcz⟩
  · rcases hzw with hr | ⟨hzp, hwc⟩
    · exact hacyc z (Relation.TransGen.head' hr hwz')
    · subst hzp; subst hwc
      exact hnr hwz'
  · rcases hzw with hr | ⟨hzp, hwc⟩
    · exact hnr (hcz.trans (Relation.ReflTransGen.head hr hwp))
    · subst hzp; subst hwc
      exact hnr hwp

/-- Acyclicity from a strictly increasing rank along steps. -/
theorem acyclic_of_rank {f : Nat → List Nat} (rank : Nat → Nat)
    (h : ∀ x y, FStep f x y → rank x < rank y) :
    ∀ z, ¬ Relation.TransGen (FStep f) z z := by
  intro z hz
  have hmono : ∀ {a b : Nat}, Relation.TransGen (FStep f) a b → rank a < rank b := by
    intro a b hab
    induction hab with
    | single hstep => exact h _ _ hstep
    | tail _ hstep ih => exact lt_trans ih (h _ _ hstep)
  exact lt_irrefl _ (hmono hz)

/-! ## Correctness of `BKE_collection_find_cycle` -/

theorem find_cycle_sound {st : CState} :
    ∀ (n : Nat) {anc col : Nat},
      BKE_collection_find_cycle st n anc col = true →
      Relation.ReflTransGen (FStep st.parents) anc col := by
  intro n
  induction n with
  | zero => intro anc col h; simp [BKE_collection_find_cycle] at h
  | succ n ih =>
    intro anc col h
    simp only [BKE_collection_find_cycle, Bool.or_eq_true, beq_iff_eq,
      List.any_eq_true] at h
    rcases h with h | ⟨p, hp, hrec⟩
    · subst h; exact Relation.ReflTransGen.refl
    · exact Relation.ReflTransGen.head hp (ih hrec)

theorem find_cycle_complete {st : CState} :
    ∀ {anc col : Nat} {l : List Nat} {n : Nat},
      FPath st.parents anc col l → l.length ≤ n →
      BKE_collection_find_cycle st n anc col = true := by
  intro anc col l n hp
  induction hp generalizing n with
  | single a =>
    intro hn
    match n, hn with
    | m + 1, _ =>
      simp [BKE_collection_find_cycle]
  | cons hstep hpath ih =>
    intro hn
    match n, hn with
    | m + 1, hn =>
      simp only [List.length_cons, Nat.add_le_add_iff_right] at hn
      simp only [BKE_collection_find_cycle, Bool.or_eq_true, beq_iff_eq,
        List.any_eq_true]
      exact Or.inr ⟨_, hstep, ih hn⟩

/-- Membership transfer between the two mirrored link tables. -/
theorem mirror_mem {st : CState} (hm : ExactMirror st) {x y : Nat} :
    y ∈ st.parents x ↔ x ∈ st.children y := by
  constructor
  · intro h
    have := hm.2 x y h
    exact List.count_pos_iff.mp (by omega)
  · intro h
    have := hm.1 y x h
    exact List.count_pos_iff.mp (by omega)

theorem acyclic_parents {st : CState} (hm : ExactMirror st)
    (hacyc : AcyclicChildren st) :
    ∀ z, ¬ Relation.TransGen (FStep st.parents) z z := by
  intro z hz
  have hmono : Relation.TransGen (Function.swap (FStep st.children)) z z := by
    refine Relation.TransGen.mono ?_ hz
    intro a b hab
    exact (mirror_mem hm).mp hab
  exact hacyc z (Relation.transGen_swap.mp hmono)

theorem closed_parents {st : CState} (hc : ClosedGraph st) :
    ∀ x ∈ st.nodes, ∀ y ∈ st.parents x, y ∈ st.nodes :=
  fun x hx => (hc x hx).2

theorem closed_children {st : CState} (hc : ClosedGraph st) :
    ∀ x ∈ st.nodes, ∀ y ∈ st.children x, y ∈ st.nodes :=
  fun x hx => (hc x hx).1

/-- On an acyclic closed store, `fuelOf` is enough budget: the C
function's verdict coincides with parent-reachability. -/
theorem find_cycle_iff {st : CState} (hinv : Inv st) {anc col : Nat}
    (ha : anc ∈ st.nodes) :
    BKE_collection_find_cycle st (fuelOf st) anc col = true ↔
      Relation.ReflTransGen (FStep st.parents) anc col := by
  obtain ⟨hm, hc, hacyc⟩ := hinv
  constructor
  · exact fun h => find_cycle_sound _ h
  · intro h
    obtain ⟨l, hl, hlen⟩ :=
      rtg_fpath_short (acyclic_parents hm hacyc) (closed_parents hc) ha h
    exact find_cycle_complete hl (le_trans hlen (Nat.le_succ _))

/-! ## Properties of `collection_object_cache_free` -/

/-- The recursive cache invalidation touches only the cache fields. -/
theorem cache_free_graph :
    ∀ (n : Nat) (st : CState) (c : Nat),
      (collection_object_cache_free st n c).nodes = st.nodes ∧
      (collection_object_cache_free st n c).children = st.children ∧
      (collection_object_cache_free st n c).parents = st.parents ∧
      (collection_object_cache_free st n c).gobject = st.gobject ∧
      (collection_object_cache_free st n c).colFlag = st.colFlag := by
  intro n
  induction n with
  | zero => intro st c; exact ⟨rfl, rfl, rfl, rfl, rfl⟩
  | succ n ih =>
    intro st c
    simp only [collection_object_cache_free]
    refine foldl_pres
      (fun (s : CState) => s.nodes = st.nodes ∧ s.children = st.children ∧
        s.parents = st.parents ∧ s.gobject = st.gobject ∧
        s.colFlag = st.colFlag) _ ?_ _ _ ⟨rfl, rfl, rfl, rfl, rfl⟩
    intro s p hs
    obtain ⟨h1, h2, h3, h4, h5⟩ := ih s p
    exact ⟨h1.trans hs.1, h2.trans hs.2.1, h3.trans hs.2.2.1,
      h4.trans hs.2.2.2.1, h5.trans hs.2.2.2.2⟩

/-- Invalidation never revalidates a cache nor refills one. -/
theorem cache_free_pres :
    ∀ (n : Nat) (st : CState) (c x : Nat),
      (st.cacheValid x = false → (collection_object_cache_free st n c).cacheValid x = false) ∧
      (st.object_cache x = [] → (collection_object_cache_free st n c).object_cache x = []) := by
  intro n
  induction n with
  | zero => intro st c x; exact ⟨id, id⟩
  | succ n ih =>
    intro st c x
    simp only [collection_object_cache_free]
    constructor
    · intro hx
      refine foldl_pres (fun (s : CState) => s.cacheValid x = false) _ ?_ _ _ ?_
      · intro s p hs; exact (ih s p x).1 hs
      · by_cases hxc : x = c
        · subst hxc; simp
        · simpa [Function.update_noteq hxc] using hx
    · intro hx
      refine foldl_pres (fun (s : CState) => s.object_cache x = []) _ ?_ _ _ ?_
      · intro s p hs; exact (ih s p x).2 hs
      · by_cases hxc : x = c
        · subst hxc; simp
        · simpa [Function.update_noteq hxc] using hx

/-- Invalidation clears the flag and cache of every node that has a
parent-back-reference walk of length within the budget. -/
theorem cache_free_clears :
    ∀ (n : Nat) (st : CState) (c x : Nat) (l : List Nat),
      FPath st.parents c x l → l.length ≤ n →
      (collection_object_cache_free st n c).cacheValid x = false ∧
      (collection_object_cache_free st n c).object_cache x = [] := by
  intro n
  induction n with
  | zero =>
    intro st c x l hp hn
    cases hp <;> simp at hn
  | succ n ih =>
    intro st c x l hp hn
    simp only [collection_object_cache_free]
    cases hp with
    | single a =>
      constructor
      · refine foldl_pres (fun (s : CState) => s.cacheValid c = false) _ ?_ _ _ (by simp)
        intro s p hs; exact (cache_free_pres n s p c).1 hs
      · refine foldl_pres (fun (s : CState) => s.object_cache c = []) _ ?_ _ _ (by simp)
        intro s p hs; exact (cache_free_pres n s p c).2 hs
    | cons hstep hpath =>
      rename_i q l'
      simp only [List.length_cons, Nat.add_le_add_iff_right] at hn
      refine foldl_point
        (fun (s : CState) => s.cacheValid x = false ∧ s.object_cache x = [])
        (fun (s : CState) => s.parents = st.parents) _ q ?_ ?_ ?_ _ _ rfl hstep
      · intro s p hs
        exact ((cache_free_graph n s p).2.2.1).trans hs
      · intro s p hs
        exact ⟨(cache_free_pres n s p x).1 hs.1, (cache_free_pres n s p x).2 hs.2⟩
      · intro s hs
        exact ih s q x l' (by rw [hs]; exact hpath) hn

/-! ## Correctness of `collection_find_child_recursive` -/

theorem find_child_rec_sound {st : CState} :
    ∀ (n : Nat) {p c : Nat},
      collection_find_child_recursive st n p c = true →
      Relation.TransGen (FStep st.children) p c := by
  intro n
  induction n with
  | zero => intro p c h; simp [collection_find_child_recursive] at h
  | succ n ih =>
    intro p c h
    simp only [collection_find_child_recursive, List.any_eq_true,
      Bool.or_eq_true, beq_iff_eq] at h
    obtain ⟨ch, hch, h⟩ := h
    rcases h with h | h
    · subst h; exact Relation.TransGen.single hch
    · exact Relation.TransGen.head hch (ih h)

theorem find_child_rec_complete {st : CState} :
    ∀ {p c q : Nat} {l : List Nat} {n : Nat},
      q ∈ st.children p → FPath st.children q c l → l.length ≤ n →
      collection_find_child_recursive st n p c = true := by
  intro p c q l n hq hp
  induction hp generalizing p n with
  | single a =>
    intro hn
    match n, hn with
    | m + 1, _ =>
      simp only [collection_find_child_recursive, List.any_eq_true,
        Bool.or_eq_true, beq_iff_eq]
      exact ⟨a, hq, Or.inl rfl⟩
  | cons hstep hpath ih =>
    rename_i a b c' l'
    intro hn
    match n, hn with
    | m + 1, hn =>
      simp only [List.length_cons, Nat.add_le_add_iff_right] at hn
      simp only [collection_find_child_recursive, List.any_eq_true,
        Bool.or_eq_true, beq_iff_eq]
      exact ⟨a, hq, Or.inr (ih hstep hn)⟩

/-- On an acyclic closed store, strict-descendant search with `fuelOf`
budget coincides with child-edge reachability in one or more steps. -/
theorem find_child_rec_iff {st : CState} (hinv : Inv st) {p c : Nat}
    (hp : p ∈ st.nodes) :
    collection_find_child_recursive st (fuelOf st) p c = true ↔
      Relation.TransGen (FStep st.children) p c := by
  obtain ⟨hm, hc, hacyc⟩ := hinv
  constructor
  · exact fun h => find_child_rec_sound _ h
  · intro h
    obtain ⟨q, hq, hrtg⟩ := Relation.TransGen.head'_iff.mp h
    have hqn : q ∈ st.nodes := closed_children hc p hp q hq
    obtain ⟨l, hl, hlen⟩ := rtg_fpath_short hacyc (closed_children hc) hqn hrtg
    exact find_child_rec_complete hq hl (le_trans hlen (Nat.le_succ _))

/-! ## Correctness of the all-collections snapshot -/

theorem scc_sound {st : CState} :
    ∀ (n : Nat) {c x : Nat},
      x ∈ scene_collection_callback st n c →
      Relation.ReflTransGen (FStep st.children) c x := by
  intro n
  induction n with
  | zero => intro c x h; simp [scene_collection_callback] at h
  | succ n ih =>
    intro c x h
    simp only [scene_collection_callback, List.mem_cons, List.mem_flatMap] at h
    rcases h with h | ⟨ch, hch, h⟩
    · subst h; exact Relation.ReflTransGen.refl
    · exact Relation.ReflTransGen.head hch (ih h)

theorem scc_complete {st : CState} :
    ∀ {c x : Nat} {l : List Nat} {n : Nat},
      FPath st.children c x l → l.length ≤ n →
      x ∈ scene_collection_callback st n c := by
  intro c x l n hp
  induction hp generalizing n with
  | single a =>
    intro hn
    match n, hn with
    | m + 1, _ => simp [scene_collection_callback]
  | cons hstep hpath ih =>
    intro hn
    match n, hn with
    | m + 1, hn =>
      simp only [List.length_cons, Nat.add_le_add_iff_right] at hn
      simp only [scene_collection_callback, List.mem_cons, List.mem_flatMap]
      exact Or.inr ⟨_, hstep, ih hn⟩

/-! ## Characterization of the cache fill -/

theorem cacheStep_pres {cr : Restrict} {ob : Nat} :
    ∀ (l : List Base) (o : Nat), hasBase l ob = true →
      hasBase (cacheStep cr l o) ob = true := by
  intro l o h
  unfold cacheStep
  split
  · exact h
  · simp only [hasBase, List.any_append, Bool.or_eq_true]
    exact Or.inl h

theorem fill_pres {st : CState} {ob : Nat} :
    ∀ (n : Nat) (lb : List Base) (c : Nat) (pr : Restrict),
      hasBase lb ob = true →
      hasBase (collection_object_cache_fill st n lb c pr) ob = true := by
  intro n
  induction n with
  | zero => intro lb c pr h; exact h
  | succ n ih =>
    intro lb c pr h
    simp only [collection_object_cache_fill]
    refine foldl_pres (fun l => hasBase l ob = true) _ ?_ _ _ ?_
    · intro l ch hl; exact ih l ch _ hl
    · exact foldl_pres (fun l => hasBase l ob = true) _
        (fun l o hl => cacheStep_pres l o hl) _ _ h

theorem member_fold_sound {cr : Restrict} {ob : Nat} :
    ∀ (obs : List Nat) (lb : List Base),
      hasBase (obs.foldl (cacheStep cr) lb) ob = true →
      hasBase lb ob = true ∨ ob ∈ obs := by
  intro obs
  induction obs with
  | nil => intro lb h; exact Or.inl h
  | cons o t ih =>
    intro lb h
    rcases ih (cacheStep cr lb o) h with h1 | h1
    · unfold cacheStep at h1
      split at h1
      · exact Or.inl h1
      · simp only [hasBase, List.any_append, Bool.or_eq_true, List.any_cons,
          List.any_nil, Bool.or_false, beq_iff_eq, mkBase] at h1
        rcases h1 with h1 | h1
        · exact Or.inl h1
        · subst h1; exact Or.inr (List.mem_cons_self o t)
    · exact Or.inr (List.mem_cons_of_mem o h1)

theorem member_fold_complete {cr : Restrict} {ob : Nat} :
    ∀ (obs : List Nat) (lb : List Base), ob ∈ obs →
      hasBase (obs.foldl (cacheStep cr) lb) ob = true := by
  intro obs
  induction obs with
  | nil => intro lb h; cases h
  | cons o t ih =>
    intro lb h
    rcases List.mem_cons.mp h with h1 | h1
    · subst h1
      simp only [List.foldl_cons]
      refine foldl_pres (fun l => hasBase l ob = true) _
        (fun l o' hl => cacheStep_pres l o' hl) _ _ ?_
      show hasBase (cacheStep cr lb ob) ob = true
      unfold cacheStep
      split
      · assumption
      · simp [hasBase, List.any_append, mkBase]
    · simp only [List.foldl_cons]
      exact ih _ h1

theorem fill_sound {st : CState} {ob : Nat} :
    ∀ (n : Nat) (lb : List Base) (c : Nat) (pr : Restrict),
      hasBase (collection_object_cache_fill st n lb c pr) ob = true →
      hasBase lb ob = true ∨
        ∃ d, Relation.ReflTransGen (FStep st.children) c d ∧ ob ∈ st.gobject d := by
  intro n
  induction n with
  | zero => intro lb c pr h; exact Or.inl h
  | succ n ih =>
    intro lb c pr h
    simp only [collection_object_cache_fill] at h
    have haux :
        ∀ (cs : List Nat) (L : List Base),
          hasBase (cs.foldl
            (fun l child => collection_object_cache_fill st n l child
              (ror (restrictOf (st.colFlag c)) pr)) L) ob = true →
          hasBase L ob = true ∨
            ∃ ch ∈ cs, ∃ d, Relation.ReflTransGen (FStep st.children) ch d ∧
              ob ∈ st.gobject d := by
      intro cs
      induction cs with
      | nil => intro L hL; exact Or.inl hL
      | cons ch t iht =>
        intro L hL
        rcases iht _ hL with h1 | ⟨ch', hch', hd⟩
        · rcases ih _ _ _ h1 with h2 | ⟨d, hd1, hd2⟩
          · exact Or.inl h2
          · exact Or.inr ⟨ch, List.mem_cons_self ch t, d, hd1, hd2⟩
        · exact Or.inr ⟨ch', List.mem_cons_of_mem ch hch', hd⟩
    rcases haux _ _ h with h1 | ⟨ch, hch, d, hd1, hd2⟩
    · rcases member_fold_sound _ _ h1 with h2 | h2
      · exact Or.inl h2
      · exact Or.inr ⟨c, Relation.ReflTransGen.refl, h2⟩
    · exact Or.inr ⟨d, Relation.ReflTransGen.head hch hd1, hd2⟩

theorem fill_complete {st : CState} {ob : Nat} :
    ∀ {c d : Nat} {l : List Nat} {n : Nat} (lb : List Base) (pr : Restrict),
      FPath st.children c d l → l.length ≤ n → ob ∈ st.gobject d →
      hasBase (collection_object_cache_fill st n lb c pr) ob = true := by
  intro c d l n lb pr hp
  induction hp generalizing n lb pr with
  | single a =>
    intro hn hob
    match n, hn with
    | m + 1, _ =>
      simp only [collection_object_cache_fill]
      refine foldl_pres (fun l => hasBase l ob = true) _ ?_ _ _ ?_
      · intro l ch hl; exact fill_pres m l ch _ hl
      · exact member_fold_complete _ _ hob
  | cons hstep hpath ih =>
    rename_i a b c' l'
    intro hn hob
    match n, hn with
    | m + 1, hn =>
      simp only [List.length_cons, Nat.add_le_add_iff_right] at hn
      simp only [collection_object_cache_fill]
      refine foldl_point (fun l => hasBase l ob = true) (fun _ => True)
        _ b (fun _ _ _ => trivial) ?_ ?_ _ _ trivial hstep
      · intro l ch hl; exact fill_pres m l ch _ hl
      · intro l _; exact ih _ _ hn hob

/-! ## Effect of the child-link mutators on the link tables -/

theorem child_add_state {st : CState} {p c : Nat}
    (h1 : collection_find_child st p c = false)
    (h2 : BKE_collection_find_cycle st (fuelOf st) p c = false) :
    (collection_child_add st p c false true).2 = true ∧
    (collection_child_add st p c false true).1.nodes = st.nodes ∧
    (collection_child_add st p c false true).1.children =
      Function.update st.children p (st.children p ++ [c]) ∧
    (collection_child_add st p c false true).1.parents =
      Function.update st.parents c (st.parents c ++ [p]) ∧
    (collection_child_add st p c false true).1.gobject = st.gobject := by
  simp only [collection_child_add, h1, h2, Bool.false_eq_true, if_false,
    Bool.true_eq_false, Bool.false_eq_true, if_true]
  refine ⟨trivial, ?_, ?_, ?_, ?_⟩
  · exact (cache_free_graph _ _ _).1
  · exact (cache_free_graph _ _ _).2.1
  · exact (cache_free_graph _ _ _).2.2.1
  · exact (cache_free_graph _ _ _).2.2.2.1

theorem child_remove_state {st : CState} {p c : Nat}
    (h1 : collection_find_child st p c = true) :
    (collection_child_remove st p c).2 = true ∧
    (collection_child_remove st p c).1.nodes = st.nodes ∧
    (collection_child_remove st p c).1.children =
      Function.update st.children p ((st.children p).erase c) ∧
    (collection_child_remove st p c).1.parents =
      Function.update st.parents c ((st.parents c).erase p) ∧
    (collection_child_remove st p c).1.gobject = st.gobject := by
  simp only [collection_child_remove, h1, if_true]
  refine ⟨trivial, ?_, ?_, ?_, ?_⟩
  · exact (cache_free_graph _ _ _).1
  · exact (cache_free_graph _ _ _).2.1
  · exact (cache_free_graph _ _ _).2.2.1
  · exact (cache_free_graph _ _ _).2.2.2.1

/-! ## Preservation of the data-model invariant -/

theorem exact_mirror_add {st st' : CState} (hm : ExactMirror st) {p c : Nat}
    (hcn : c ∉ st.children p)
    (hch : st'.children = Function.update st.children p (st.children p ++ [c]))
    (hpa : st'.parents = Function.update st.parents c (st.parents c ++ [p])) :
    ExactMirror st' := by
  have hpn : p ∉ st.parents c := by
    intro hmem
    have := hm.2 c p hmem
    exact hcn (List.count_pos_iff.mp (by omega))
  have hc0 : List.count c (st.children p) = 0 := List.count_eq_zero.mpr hcn
  have hp0 : List.count p (st.parents c) = 0 := List.count_eq_zero.mpr hpn
  constructor
  · intro p' c' h
    rw [hch] at h
    rw [hpa]
    by_cases hp' : p' = p
    · subst hp'
      rw [Function.update_same] at h
      rcases List.mem_append.mp h with h' | h'
      · have hc'c : c' ≠ c := fun he => hcn (he ▸ h')
        rw [Function.update_noteq hc'c]
        exact hm.1 p' c' h'
      · have hc'c : c' = c := List.mem_singleton.mp h'
        subst hc'c
        rw [Function.update_same, List.count_append]
        simp [hp0]
    · rw [Function.update_noteq hp'] at h
      by_cases hc' : c' = c
      · subst hc'
        rw [Function.update_same, List.count_append]
        have hone := hm.1 p' c' h
        have hz : List.count p' [p] = 0 := List.count_eq_zero.mpr (by simp [hp'])
        omega
      · rw [Function.update_noteq hc']
        exact hm.1 p' c' h
  · intro c' p' h
    rw [hpa] at h
    rw [hch]
    by_cases hc' : c' = c
    · subst hc'
      rw [Function.update_same] at h
      rcases List.mem_append.mp h with h' | h'
      · have hp'p : p' ≠ p := fun he => hpn (he ▸ h')
        rw [Function.update_noteq hp'p]
        exact hm.2 c' p' h'
      · have hp'p : p' = p := List.mem_singleton.mp h'
        subst hp'p
        rw [Function.update_same, List.count_append]
        simp [hc0]
    · rw [Function.update_noteq hc'] at h
      by_cases hp' : p' = p
      · subst hp'
        rw [Function.update_same, List.count_append]
        have hone := hm.2 c' p' h
        have hz : List.count c' [c] = 0 := List.count_eq_zero.mpr (by simp [hc'])
        omega
      · rw [Function.update_noteq hp']
        exact hm.2 c' p' h

theorem exact_mirror_remove {st st' : CState} (hm : ExactMirror st) {p c : Nat}
    (hmem : c ∈ st.children p)
    (hch : st'.children = Function.update st.children p ((st.children p).erase c))
    (hpa : st'.parents = Function.update st.parents c ((st.parents c).erase p)) :
    ExactMirror st' := by
  have hpc : List.count p (st.parents c) = 1 := hm.1 p c hmem
  have hpmem : p ∈ st.parents c := List.count_pos_iff.mp (by omega)
  have hcp : List.count c (st.children p) = 1 := hm.2 c p hpmem
  constructor
  · intro p' c' h
    rw [hch] at h
    rw [hpa]
    by_cases hp' : p' = p
    · subst hp'
      rw [Function.update_same] at h
      have hc'c : c' ≠ c := by
        intro he
        subst he
        have : List.count c' ((st.children p').erase c') =
            List.count c' (st.children p') - 1 := List.count_erase_self c' _
        have hpos : 0 < List.count c' ((st.children p').erase c') :=
          List.count_pos_iff.mpr h
        omega
      rw [Function.update_noteq hc'c]
      exact hm.1 p' c' (List.mem_of_mem_erase h)
    · rw [Function.update_noteq hp'] at h
      by_cases hc' : c' = c
      · subst hc'
        rw [Function.update_same, List.count_erase_of_ne hp']
        exact hm.1 p' c' h
      · rw [Function.update_noteq hc']
        exact hm.1 p' c' h
  · intro c' p' h
    rw [hpa] at h
    rw [hch]
    by_cases hc' : c' = c
    · subst hc'
      rw [Function.update_same] at h
      have hp'p : p' ≠ p := by
        intro he
        subst he
        have : List.count p' ((st.parents c').erase p') =
            List.count p' (st.parents c') - 1 := List.count_erase_self p' _
        have hpos : 0 < List.count p' ((st.parents c').erase p') :=
          List.count_pos_iff.mpr h
        omega
      rw [Function.update_noteq hp'p]
      exact hm.2 c' p' (List.mem_of_mem_erase h)
    · rw [Function.update_noteq hc'] at h
      by_cases hp' : p' = p
      · subst hp'
        rw [Function.update_same, List.count_erase_of_ne hc']
        exact hm.2 c' p' h
      · rw [Function.update_noteq hp']
        exact hm.2 c' p' h

theorem closed_add {st st' : CState} (hc : ClosedGraph st) {p c : Nat}
    (hp : p ∈ st.nodes) (hcin : c ∈ st.nodes)
    (hn : st'.nodes = st.nodes)
    (hch : st'.children = Function.update st.children p (st.children p ++ [c]))
    (hpa : st'.parents = Function.update st.parents c (st.parents c ++ [p])) :
    ClosedGraph st' := by
  intro x hx
  rw [hn] at hx
  rw [hn, hch, hpa]
  constructor
  · intro y hy
    by_cases hxp : x = p
    · subst hxp
      rw [Function.update_same] at hy
      rcases List.mem_append.mp hy with h' | h'
      · exact (hc x hx).1 y h'
      · rw [List.mem_singleton.mp h']; exact hcin
    · rw [Function.update_noteq hxp] at hy
      exact (hc x hx).1 y hy
  · intro y hy
    by_cases hxc : x = c
    · subst hxc
      rw [Function.update_same] at hy
      rcases List.mem_append.mp hy with h' | h'
      · exact (hc x hx).2 y h'
      · rw [List.mem_singleton.mp h']; exact hp
    · rw [Function.update_noteq hxc] at hy
      exact (hc x hx).2 y hy

theorem closed_remove {st st' : CState} (hc : ClosedGraph st) {p c : Nat}
    (hn : st'.nodes = st.nodes)
    (hch : st'.children = Function.update st.children p ((st.children p).erase c))
    (hpa : st'.parents = Function.update st.parents c ((st.parents c).erase p)) :
    ClosedGraph st' := by
  intro x hx
  rw [hn] at hx
  rw [hn, hch, hpa]
  constructor
  · intro y hy
    by_cases hxp : x = p
    · subst hxp
      rw [Function.update_same] at hy
      exact (hc x hx).1 y (List.mem_of_mem_erase hy)
    · rw [Function.update_noteq hxp] at hy
      exact (hc x hx).1 y hy
  · intro y hy
    by_cases hxc : x = c
    · subst hxc
      rw [Function.update_same] at hy
      exact (hc x hx).2 y (List.mem_of_mem_erase hy)
    · rw [Function.update_noteq hxc] at hy
      exact (hc x hx).2 y hy

theorem acyclic_add {st st' : CState} (hinv : Inv st) {p c : Nat}
    (hp : p ∈ st.nodes)
    (hguard : BKE_collection_find_cycle st (fuelOf st) p c = false)
    (hch : st'.children = Function.update st.children p (st.children p ++ [c])) :
    AcyclicChildren st' := by
  have hnr_par : ¬ Relation.ReflTransGen (FStep st.parents) p c := by
    intro h
    have := (find_cycle_iff hinv hp).mpr h
    rw [hguard] at this
    exact Bool.false_ne_true this
  have hnr_child : ¬ Relation.ReflTransGen (FStep st.children) c p := by
    intro h
    exact hnr_par (rtg_swap_of_steps
      (fun x y hxy => (mirror_mem hinv.1).mpr hxy) h)
  have hins := acyclic_insert (p := p) (c := c) hinv.2.2 hnr_child
  intro z hz
  apply hins z
  refine Relation.TransGen.mono ?_ hz
  intro u v huv
  have huv' : v ∈ Function.update st.children p (st.children p ++ [c]) u := by
    rw [← hch]; exact huv
  by_cases hup : u = p
  · subst hup
    rw [Function.update_same] at huv'
    rcases List.mem_append.mp huv' with h' | h'
    · exact Or.inl h'
    · exact Or.inr ⟨rfl, List.mem_singleton.mp h'⟩
  · rw [Function.update_noteq hup] at huv'
    exact Or.inl huv'

theorem acyclic_remove {st st' : CState} (hacyc : AcyclicChildren st) {p c : Nat}
    (hch : st'.children = Function.update st.children p ((st.children p).erase c)) :
    AcyclicChildren st' := by
  intro z hz
  apply hacyc z
  refine Relation.TransGen.mono ?_ hz
  intro u v huv
  have huv' : v ∈ Function.update st.children p ((st.children p).erase c) u := by
    rw [← hch]; exact huv
  by_cases hup : u = p
  · subst hup
    rw [Function.update_same] at huv'
    exact List.mem_of_mem_erase huv'
  · rw [Function.update_noteq hup] at huv'
    exact huv'

theorem BKE_child_add_fst (st : CState) (p c : Nat) :
    (BKE_collection_child_add st p c).1 = (collection_child_add st p c false true).1 := by
  by_cases h : (collection_child_add st p c false true).2 <;>
    simp [BKE_collection_child_add, BKE_main_collection_sync, h]

theorem BKE_child_remove_fst (st : CState) (p c : Nat) :
    (BKE_collection_child_remove st p c).1 = (collection_child_remove st p c).1 := by
  by_cases h : (collection_child_remove st p c).2 <;>
    simp [BKE_collection_child_remove, BKE_main_collection_sync, h]

theorem inv_applyOp {st : CState} {op : Op} (hinv : Inv st)
    (hp : op.parent ∈ st.nodes) (hc : op.child ∈ st.nodes) :
    Inv (applyOp st op) ∧ (applyOp st op).nodes = st.nodes := by
  cases op with
  | addChild p c =>
    simp only [applyOp, BKE_child_add_fst]
    simp only [Op.parent, Op.child] at hp hc
    by_cases h1 : collection_find_child st p c = true
    · simp only [collection_child_add, h1, if_true]
      exact ⟨hinv, trivial⟩
    · have h1' : collection_find_child st p c = false := by
        simpa using h1
      by_cases h2 : BKE_collection_find_cycle st (fuelOf st) p c = true
      · simp only [collection_child_add, h1', h2, Bool.false_eq_true, if_false, if_true]
        exact ⟨hinv, trivial⟩
      · have h2' : BKE_collection_find_cycle st (fuelOf st) p c = false := by
          simpa using h2
        obtain ⟨_, hn, hch, hpa, _⟩ := child_add_state h1' h2'
        have hcn : c ∉ st.children p := by
          simpa [collection_find_child] using h1'
        refine ⟨⟨exact_mirror_add hinv.1 hcn hch hpa,
          closed_add hinv.2.1 hp hc hn hch hpa,
          acyclic_add hinv hp h2' hch⟩, hn⟩
  | removeChild p c =>
    simp only [applyOp, BKE_child_remove_fst]
    by_cases h1 : collection_find_child st p c = true
    · obtain ⟨_, hn, hch, hpa, _⟩ := child_remove_state h1
      have hmem : c ∈ st.children p := by
        simpa [collection_find_child] using h1
      refine ⟨⟨exact_mirror_remove hinv.1 hmem hch hpa,
        closed_remove hinv.2.1 hn hch hpa,
        acyclic_remove hinv.2.2 hch⟩, hn⟩
    · have h1' : collection_find_child st p c = false := by simpa using h1
      simp only [collection_child_remove, h1', Bool.false_eq_true, if_false]
      exact ⟨hinv, trivial⟩

/-! ## Effect of the member mutators -/

theorem object_remove_state {st : CState} {col ob : Nat} {fu : Bool}
    (hmem : ob ∈ st.gobject col) :
    (collection_object_remove st col ob fu).2 = true ∧
    (collection_object_remove st col ob fu).1.nodes = st.nodes ∧
    (collection_object_remove st col ob fu).1.children = st.children ∧
    (collection_object_remove st col ob fu).1.parents = st.parents ∧
    (collection_object_remove st col ob fu).1.gobject =
      Function.update st.gobject col ((st.gobject col).erase ob) ∧
    (∀ a l, FPath st.parents col a l → l.length ≤ fuelOf st →
      (collection_object_remove st col ob fu).1.cacheValid a = false ∧
      (collection_object_remove st col ob fu).1.object_cache a = []) := by
  simp only [collection_object_remove, hmem, decide_True, if_true,
    BKE_collection_object_cache_free]
  refine ⟨trivial, ?_, ?_, ?_, ?_, ?_⟩
  · exact (cache_free_graph _ _ _).1
  · exact (cache_free_graph _ _ _).2.1
  · exact (cache_free_graph _ _ _).2.2.1
  · exact (cache_free_graph _ _ _).2.2.2.1
  · intro a l hp hlen
    exact cache_free_clears _ _ _ _ _ hp hlen

theorem object_add_fail {st : CState} {col ob : Nat} {nr au : Bool}
    (h : (collection_object_add st col ob nr au).2 = false) :
    collection_object_add st col ob nr au = (st, false) := by
  cases hdg : st.dup_group ob with
  | none =>
    by_cases hmem : ob ∈ st.gobject col
    · simp [collection_object_add, hdg, hmem]
    · simp [collection_object_add, hdg, hmem] at h
  | some dup =>
    by_cases hrec : collection_find_child_recursive st (fuelOf st) col dup = true
    · simp [collection_object_add, hdg, hrec]
    · by_cases hmem : ob ∈ st.gobject col
      · simp [collection_object_add, hdg, hrec, hmem]
      · simp [collection_object_add, hdg, hrec, hmem] at h

/-! ## Sibling-select helper -/

theorem sel_fold_none {st : CState} {n c : Nat} {des : Bool}
    (hsel : ∀ vl, collection_objects_select st n vl c des = none) :
    ∀ (l : List Nat) (acc : Option (List VLBase × Bool)), l ≠ [] →
      List.foldl (fun acc _child =>
        Option.bind acc fun vc =>
          Option.map (fun vc2 => (vc2.1, vc.2 || vc2.2))
            (collection_objects_select st n vc.1 c des)) acc l =
        none := by
  have hstep : ∀ (acc : Option (List VLBase × Bool)),
      (Option.bind acc fun vc =>
        Option.map (fun vc2 => (vc2.1, vc.2 || vc2.2))
          (collection_objects_select st n vc.1 c des)) = none := by
    intro acc
    cases acc with
    | none => rfl
    | some m => simp [hsel m.1]
  intro l
  induction l with
  | nil => intro acc h; exact absurd rfl h
  | cons a t iht =>
    intro acc _
    simp only [List.foldl_cons]
    cases t with
    | nil => exact hstep acc
    | cons b t' => exact iht _ (by simp)

/-! ## Invariants of the concrete stores -/

theorem inv_st0 : Inv st0 := by
  refine ⟨⟨?_, ?_⟩, ?_, ?_⟩
  · intro p c h
    by_cases hp : p = 0
    · subst hp
      have hc : c = 1 := by simpa [st0] using h
      subst hc
      decide
    · exfalso; simp [st0, hp] at h
  · intro c p h
    by_cases hc : c = 1
    · subst hc
      have hp : p = 0 := by simpa [st0] using h
      subst hp
      decide
    · exfalso; simp [st0, hc] at h
  · intro x hx
    have hx' : x = 0 ∨ x = 1 := by simpa [st0] using hx
    rcases hx' with rfl | rfl
    · exact ⟨by decide, by decide⟩
    · exact ⟨by decide, by decide⟩
  · refine acyclic_of_rank (fun x => x) ?_
    intro x y h
    simp only [FStep, st0] at h
    by_cases hx : x = 0
    · subst hx
      simp at h
      subst h
      decide
    · simp [hx] at h

theorem inv_stD : Inv stD := by
  refine ⟨⟨?_, ?_⟩, ?_, ?_⟩
  · intro p c h
    by_cases h0 : p = 0
    · subst h0
      have hc : c = 1 ∨ c = 2 := by simpa [stD] using h
      rcases hc with rfl | rfl <;> decide
    · by_cases h1 : p = 1
      · subst h1
        have hc : c = 3 := by simpa [stD] using h
        subst hc
        decide
      · by_cases h2 : p = 2
        · subst h2
          have hc : c = 3 := by simpa [stD] using h
          subst hc
          decide
        · exfalso; simp [stD, h0, h1, h2] at h
  · intro c p h
    by_cases h1 : c = 1
    · subst h1
      have hp : p = 0 := by simpa [stD] using h
      subst hp
      decide
    · by_cases h2 : c = 2
      · subst h2
        have hp : p = 0 := by simpa [stD] using h
        subst hp
        decide
      · by_cases h3 : c = 3
        · subst h3
          have hp : p = 1 ∨ p = 2 := by simpa [stD] using h
          rcases hp with rfl | rfl <;> decide
        · exfalso; simp [stD, h1, h2, h3] at h
  · intro x hx
    have hx' : x = 0 ∨ x = 1 ∨ x = 2 ∨ x = 3 := by simpa [stD] using hx
    rcases hx' with rfl | rfl | rfl | rfl
    · exact ⟨by decide, by decide⟩
    · exact ⟨by decide, by decide⟩
    · exact ⟨by decide, by decide⟩
    · exact ⟨by decide, by decide⟩
  · refine acyclic_of_rank (fun x => x) ?_
    intro x y h
    simp only [FStep, stD] at h
    by_cases h0 : x = 0
    · subst h0
      simp at h
      rcases h with rfl | rfl <;> decide
    · by_cases h1 : x = 1
      · subst h1
        simp at h
        subst h
        decide
      · by_cases h2 : x = 2
        · subst h2
          simp at h
          subst h
          decide
        · simp [h0, h1, h2] at h

/-! ## Claim theorems -/

theorem inv_applyOps {st : CState} {ops : List Op} (hinv : Inv st)
    (hops : OpsValid st ops) :
    Inv (applyOps st ops) ∧ (applyOps st ops).nodes = st.nodes := by
  induction ops generalizing st with
  | nil => exact ⟨hinv, rfl⟩
  | cons op t ih =>
    have hop := hops op (List.mem_cons_self op t)
    have h1 := inv_applyOp hinv hop.1 hop.2
    have hops' : OpsValid (applyOp st op) t := by
      intro op' hmem
      rw [h1.2]
      exact hops op' (List.mem_cons_of_mem op hmem)
    have h2 := ih h1.1 hops'
    exact ⟨h2.1, h2.2.trans h1.2⟩

/-- C1: starting from any store satisfying the data-model invariants,
any sequence of public `add_child`/`remove_child` calls (each a no-op
when it fails) leaves the child/parent relation acyclic and keeps the
two link tables exactly mirrored: every child-edge (P→C) has exactly
one parent-back-reference (C→P) and vice versa. -/
theorem c1_link_invariants (st : CState) (ops : List Op)
    (hinv : Inv st) (hops : OpsValid st ops) :
    ExactMirror (applyOps st ops) ∧ AcyclicChildren (applyOps st ops) :=
  ⟨(inv_applyOps hinv hops).1.1, (inv_applyOps hinv hops).1.2.2⟩

/-- Witness for C1 at a concrete store and call sequence. -/
theorem c1_witness :
    ExactMirror (applyOps st0 [Op.removeChild 0 1]) ∧
    AcyclicChildren (applyOps st0 [Op.removeChild 0 1]) :=
  c1_link_invariants st0 [Op.removeChild 0 1] inv_st0 (by
    intro op hop
    rcases List.mem_singleton.mp hop with rfl
    exact ⟨by decide, by decide⟩)

/-- C2 counterexample: in the acyclic diamond store `stD` the
all-collections snapshot emits collection `3` twice, so the iterator
does not yield each node exactly once when it is reachable through two
parents. -/
theorem c2_counterexample :
    AcyclicChildren stD ∧ List.count 3 (scene_collections_array stD 0) = 2 :=
  ⟨inv_stD.2.2, by decide⟩

/-- C2 (amended): the all-collections snapshot contains exactly the
collections reachable from the master along child-edges; a node
reachable through several parents is emitted once per arrival and is
not deduplicated. -/
theorem c2_collections_emission (st : CState) (hinv : Inv st)
    {master : Nat} (hm : master ∈ st.nodes) (x : Nat) :
    x ∈ scene_collections_array st master ↔
      Relation.ReflTransGen (FStep st.children) master x := by
  constructor
  · intro h
    exact scc_sound _ h
  · intro h
    obtain ⟨l, hl, hlen⟩ :=
      rtg_fpath_short hinv.2.2 (closed_children hinv.2.1) hm h
    exact scc_complete hl (le_trans hlen (Nat.le_succ _))

/-- Witness for the amended C2 on the diamond store. -/
theorem c2_witness :
    3 ∈ scene_collections_array stD 0 ↔
      Relation.ReflTransGen (FStep stD.children) 0 3 :=
  c2_collections_emission stD inv_stD (by decide) 3

/-- C3 counterexample: with the single edge `0 → 1`,
`BKE_collection_find_cycle 1 0` returns true although `0 ≠ 1` and the
candidate ancestor `1` is not reachable from collection `0` by walking
parent-back-references — the claim's direction of the walk is wrong. -/
theorem c3_counterexample :
    BKE_collection_find_cycle st0 (fuelOf st0) 1 0 = true ∧
    ¬ ((0 : Nat) = 1 ∨ Relation.ReflTransGen (FStep st0.parents) 0 1) := by
  constructor
  · decide
  · rintro (h | h)
    · exact absurd h (by decide)
    · rcases h.cases_head with h1 | ⟨w, hw, _⟩
      · exact absurd h1 (by decide)
      · simp [FStep, st0] at hw

/-- C3 (amended): `BKE_collection_find_cycle candidate_ancestor
collection` returns true iff `collection` equals the candidate ancestor
or `collection` is reachable from the candidate ancestor by walking
parent-back-references transitively. -/
theorem c3_find_cycle_correct (st : CState) (hinv : Inv st)
    {anc col : Nat} (ha : anc ∈ st.nodes) :
    BKE_collection_find_cycle st (fuelOf st) anc col = true ↔
      (col = anc ∨ Relation.ReflTransGen (FStep st.parents) anc col) := by
  rw [find_cycle_iff hinv ha]
  constructor
  · exact fun h => Or.inr h
  · rintro (rfl | h)
    · exact Relation.ReflTransGen.refl
    · exact h

/-- Witness for the amended C3 on the concrete two-node store. -/
theorem c3_witness :
    BKE_collection_find_cycle st0 (fuelOf st0) 1 0 = true ↔
      ((0 : Nat) = 1 ∨ Relation.ReflTransGen (FStep st0.parents) 1 0) :=
  c3_find_cycle_correct st0 inv_st0 (by decide)

/-- C4 counterexample: object `5` instances collection `0` itself — an
ancestor-or-self of the target — yet `collection_object_add` succeeds
and appends the member-edge; the guard actually checks for strict
descendants, not ancestors. -/
theorem c4_counterexample :
    stC4.dup_group 5 = some 0 ∧
    Relation.ReflTransGen (FStep stC4.parents) 0 0 ∧
    (collection_object_add stC4 0 5 false true).2 = true ∧
    (collection_object_add stC4 0 5 false true).1.gobject 0 = [5] :=
  ⟨rfl, Relation.ReflTransGen.refl, by decide, by decide⟩

/-- C4 (amended): `collection_object_add` fails (returning false with no
mutation) iff the object is already a direct member or its `dup_group`
collection is a strict descendant of the target (reachable by one or
more child-edges); otherwise it succeeds and appends the member-edge. -/
theorem c4_object_add (st : CState) (hinv : Inv st) {col ob : Nat}
    (hcol : col ∈ st.nodes) (nr au : Bool) :
    ((collection_object_add st col ob nr au).2 = false ↔
      (ob ∈ st.gobject col ∨
        ∃ d, st.dup_group ob = some d ∧
          Relation.TransGen (FStep st.children) col d)) ∧
    ((collection_object_add st col ob nr au).2 = false →
      (collection_object_add st col ob nr au).1 = st) ∧
    ((collection_object_add st col ob nr au).2 = true →
      (collection_object_add st col ob nr au).1.gobject col =
        st.gobject col ++ [ob]) := by
  cases hdg : st.dup_group ob with
  | none =>
    by_cases hmem : ob ∈ st.gobject col
    · have hred : collection_object_add st col ob nr au = (st, false) := by
        simp [collection_object_add, hdg, hmem]
      rw [hred]
      exact ⟨iff_of_true rfl (Or.inl hmem), fun _ => rfl, fun h => nomatch h⟩
    · have h2 : (collection_object_add st col ob nr au).2 = true := by
        simp [collection_object_add, hdg, hmem]
      refine ⟨iff_of_false (by simp [h2]) ?_, fun h => absurd (h2.symm.trans h) (by decide), fun _ => ?_⟩
      · rintro (h | ⟨d, hd, _⟩)
        · exact hmem h
        · exact Option.noConfusion hd
      · simp only [collection_object_add, hdg, hmem, decide_False,
          Bool.false_eq_true, if_false, BKE_collection_object_cache_free]
        by_cases hb : (au && !nr) = true
        · simp only [hb, if_true]
          rw [(cache_free_graph _ _ _).2.2.2.1]
          exact Function.update_same _ _ _
        · simp only [hb, Bool.false_eq_true, if_false]
          rw [(cache_free_graph _ _ _).2.2.2.1]
          exact Function.update_same _ _ _
  | some dup =>
    by_cases hrec : collection_find_child_recursive st (fuelOf st) col dup = true
    · have hred : collection_object_add st col ob nr au = (st, false) := by
        simp [collection_object_add, hdg, hrec]
      rw [hred]
      exact ⟨iff_of_true rfl
        (Or.inr ⟨dup, rfl, (find_child_rec_iff hinv hcol).mp hrec⟩),
        fun _ => rfl, fun h => nomatch h⟩
    · have hrec' : collection_find_child_recursive st (fuelOf st) col dup = false := by
        simpa using hrec
      by_cases hmem : ob ∈ st.gobject col
      · have hred : collection_object_add st col ob nr au = (st, false) := by
          simp [collection_object_add, hdg, hrec', hmem]
        rw [hred]
        exact ⟨iff_of_true rfl (Or.inl hmem), fun _ => rfl, fun h => nomatch h⟩
      · have h2 : (collection_object_add st col ob nr au).2 = true := by
          simp [collection_object_add, hdg, hrec', hmem]
        refine ⟨iff_of_false (by simp [h2]) ?_, fun h => absurd (h2.symm.trans h) (by decide), fun _ => ?_⟩
        · rintro (h | ⟨d, hd, htg⟩)
          · exact hmem h
          · have hd' : d = dup := by injection hd with h'; exact h'.symm
            subst hd'
            have := (find_child_rec_iff hinv hcol).mpr htg
            rw [hrec'] at this
            exact Bool.false_ne_true this
        · simp only [collection_object_add, hdg, hrec', hmem, decide_False,
            Bool.false_eq_true, if_false, BKE_collection_object_cache_free]
          by_cases hb : (au && !nr) = true
          · simp only [hb, if_true]
            rw [(cache_free_graph _ _ _).2.2.2.1]
            exact Function.update_same _ _ _
          · simp only [hb, Bool.false_eq_true, if_false]
            rw [(cache_free_graph _ _ _).2.2.2.1]
            exact Function.update_same _ _ _

/-- Witness for the amended C4: adding an object that is already a
direct member fails without mutation. -/
theorem c4_witness :
    ((collection_object_add st0 0 5 false true).2 = false ↔
      (5 ∈ st0.gobject 0 ∨
        ∃ d, st0.dup_group 5 = some d ∧
          Relation.TransGen (FStep st0.children) 0 d)) ∧
    ((collection_object_add st0 0 5 false true).2 = false →
      (collection_object_add st0 0 5 false true).1 = st0) ∧
    ((collection_object_add st0 0 5 false true).2 = true →
      (collection_object_add st0 0 5 false true).1.gobject 0 =
        st0.gobject 0 ++ [5]) :=
  c4_object_add st0 inv_st0 (by decide) false true

/-- C5: `collection_child_add P C` returns false and leaves the store
untouched (no edge, no back-reference, no use-count change, no cache
invalidation) whenever the edge P→C already exists or C is an
ancestor-or-self of P along parent-back-references. -/
theorem c5_child_add_guard (st : CState) (hinv : Inv st) {p c : Nat}
    (hp : p ∈ st.nodes)
    (h : c ∈ st.children p ∨ Relation.ReflTransGen (FStep st.parents) p c)
    (no_main add_us : Bool) :
    collection_child_add st p c no_main add_us = (st, false) := by
  rcases h with h | h
  · have h1 : collection_find_child st p c = true := by
      simp [collection_find_child, h]
    simp [collection_child_add, h1]
  · by_cases h1 : collection_find_child st p c = true
    · simp [collection_child_add, h1]
    · have h1' : collection_find_child st p c = false := by simpa using h1
      have h2 : BKE_collection_find_cycle st (fuelOf st) p c = true :=
        (find_cycle_iff hinv hp).mpr h
      simp [collection_child_add, h1', h2]

/-- Witness for C5: re-adding the existing edge `0 → 1` fails without
mutation. -/
theorem c5_witness : collection_child_add st0 0 1 false true = (st0, false) :=
  c5_child_add_guard st0 inv_st0 (by decide) (Or.inl (by decide)) false true

/-- C6: after a successful member removal the flattened list obtained
from `BKE_collection_object_cache_get` contains the object iff it is
still reachable from the collection through some remaining path, and
the removal invalidates the cache of the collection and of every
ancestor along parent-back-references. -/
theorem c6_remove_then_flatten (st : CState) (hinv : Inv st) {col ob : Nat}
    (hcol : col ∈ st.nodes) (fu : Bool)
    (hok : (collection_object_remove st col ob fu).2 = true) :
    (hasBase (BKE_collection_object_cache_get
        (collection_object_remove st col ob fu).1 col).2 ob = true ↔
      ∃ d, Relation.ReflTransGen
          (FStep (collection_object_remove st col ob fu).1.children) col d ∧
        ob ∈ (collection_object_remove st col ob fu).1.gobject d) ∧
    (∀ a, Relation.ReflTransGen (FStep st.parents) col a →
      (collection_object_remove st col ob fu).1.cacheValid a = false) := by
  have hmem : ob ∈ st.gobject col := by
    by_contra hmem
    simp [collection_object_remove, hmem] at hok
  obtain ⟨-, hn, hch, hpa, hg, hclear⟩ := @object_remove_state st col ob fu hmem
  have hone : (1 : Nat) ≤ fuelOf st := Nat.succ_le_succ (Nat.zero_le _)
  have hvalcol := hclear col [col] (FPath.single col) (by simpa using hone)
  constructor
  · have hget : (BKE_collection_object_cache_get
        (collection_object_remove st col ob fu).1 col).2 =
        collection_object_cache_fill (collection_object_remove st col ob fu).1
          (fuelOf (collection_object_remove st col ob fu).1)
          ((collection_object_remove st col ob fu).1.object_cache col) col
          ⟨false, false, false⟩ := by
      simp [BKE_collection_object_cache_get, hvalcol.1]
    rw [hget, hvalcol.2]
    constructor
    · intro h
      rcases fill_sound _ _ _ _ h with h1 | h1
      · simp [hasBase] at h1
      · exact h1
    · rintro ⟨d, hrtg, hob⟩
      have hacyc' : ∀ z, ¬ Relation.TransGen
          (FStep (collection_object_remove st col ob fu).1.children) z z := by
        rw [hch]; exact hinv.2.2
      have hcl' : ∀ x ∈ (collection_object_remove st col ob fu).1.nodes,
          ∀ y ∈ (collection_object_remove st col ob fu).1.children x,
            y ∈ (collection_object_remove st col ob fu).1.nodes := by
        rw [hch, hn]; exact closed_children hinv.2.1
      have hcol' : col ∈ (collection_object_remove st col ob fu).1.nodes := by
        rw [hn]; exact hcol
      obtain ⟨l, hl, hlen⟩ := rtg_fpath_short hacyc' hcl' hcol' hrtg
      refine fill_complete _ _ hl (le_trans hlen ?_) hob
      simp only [fuelOf]
      omega
  · intro a hrtg
    obtain ⟨l, hl, hlen⟩ := rtg_fpath_short
      (acyclic_parents hinv.1 hinv.2.2) (closed_parents hinv.2.1) hcol hrtg
    exact (hclear a l hl (le_trans hlen (Nat.le_succ _))).1

/-- Witness for C6 at the two-node store: removing `5` from `0`
succeeds, the refilled flattened list of `0` is characterized by
reachability, and the caches up the parent chain are invalid. -/
theorem c6_witness :
    (hasBase (BKE_collection_object_cache_get
        (collection_object_remove st0 0 5 false).1 0).2 5 = true ↔
      ∃ d, Relation.ReflTransGen
          (FStep (collection_object_remove st0 0 5 false).1.children) 0 d ∧
        5 ∈ (collection_object_remove st0 0 5 false).1.gobject d) ∧
    (∀ a, Relation.ReflTransGen (FStep st0.parents) 0 a →
      (collection_object_remove st0 0 5 false).1.cacheValid a = false) :=
  c6_remove_then_flatten st0 inv_st0 (by decide) false (by decide)

/-- C7: `BKE_collection_object_cache_get` is idempotent — a second call
with no intervening mutation returns the same store and the same
flattened sequence (same objects, same flags, same order). -/
theorem c7_cache_get_idempotent (st : CState) (c : Nat) :
    BKE_collection_object_cache_get (BKE_collection_object_cache_get st c).1 c =
      BKE_collection_object_cache_get st c := by
  by_cases h : st.cacheValid c
  · simp [BKE_collection_object_cache_get, h]
  · simp [BKE_collection_object_cache_get, h, Function.update_same]

/-- C8: on a scene whose master collection has a direct member object,
the all-objects iterator emits that object twice — `begin` emits it
without recording it in the visited set, and the following `next`
re-emits it — contradicting the code's own stated purpose of the
visited set ("make sure each object is called once"). -/
theorem c8_first_member_emitted_twice :
    sobj_run stM 10 (sobj_begin stM 0) = [5, 5] := by decide

/-- C9: the sibling-select traversal recurses on `collection` instead of
the child, so (i) whenever the restrict-select flag is unset and the
collection has at least one child the recursion never terminates (runs
out of any budget), and (ii) the traversal reads only the collection's
own row — it never descends into a child collection's members. -/
theorem c9_sibling_select (st : CState) (c : Nat) :
    ((st.colFlag c).restrictSelect = false → st.children c ≠ [] →
      ∀ (fuel : Nat) (vl : List VLBase) (des : Bool),
        collection_objects_select st fuel vl c des = none) ∧
    (∀ st2 : CState, st2.children c = st.children c →
      st2.gobject c = st.gobject c → st2.colFlag c = st.colFlag c →
      ∀ (fuel : Nat) (vl : List VLBase) (des : Bool),
        collection_objects_select st fuel vl c des =
          collection_objects_select st2 fuel vl c des) := by
  constructor
  · intro hflag hne fuel
    induction fuel with
    | zero => intro vl des; rfl
    | succ n ih =>
      intro vl des
      simp only [collection_objects_select, hflag, Bool.false_eq_true, if_false]
      exact sel_fold_none (fun vl' => ih vl' des) _ _ hne
  · intro st2 h1 h2 h3 fuel
    induction fuel with
    | zero => intro vl des; rfl
    | succ n ih =>
      intro vl des
      simp only [collection_objects_select, h1, h2, h3]
      have haux : ∀ (l : List Nat) (acc : Option (List VLBase × Bool)),
          List.foldl (fun acc _child =>
            Option.bind acc fun vc =>
              Option.map (fun vc2 => (vc2.1, vc.2 || vc2.2))
                (collection_objects_select st n vc.1 c des)) acc l =
          List.foldl (fun acc _child =>
            Option.bind acc fun vc =>
              Option.map (fun vc2 => (vc2.1, vc.2 || vc2.2))
                (collection_objects_select st2 n vc.1 c des)) acc l := by
        intro l
        induction l with
        | nil => intro acc; rfl
        | cons a t iht =>
          intro acc
          simp only [List.foldl_cons]
          cases acc with
          | none => exact iht _
          | some m =>
            simp only [Option.some_bind]
            rw [ih m.1 des]
            exact iht _
      by_cases hfl : (st.colFlag c).restrictSelect = true
      · simp [hfl]
      · simp only [hfl, Bool.false_eq_true, if_false]
        exact haux _ _

/-- Witness for C9: with the restrict-select flag clear and one child,
the traversal exhausts any recursion budget. -/
theorem c9_witness : collection_objects_select st0 3 [] 0 true = none :=
  (c9_sibling_select st0 0).1 (by decide) (by decide) 3 [] true

/-- C10: with a non-NULL source collection, `BKE_collection_object_move`
removes the object from the source only if adding it to the destination
succeeded; in particular when the object is already a direct member of
the destination the whole move is a no-op, so the object also stays in
the source. -/
theorem c10_move_requires_add (st : CState) (master dst src ob : Nat) :
    ((BKE_collection_object_add st dst ob).2 = false →
      BKE_collection_object_move st master dst (some src) ob = st) ∧
    (ob ∈ st.gobject dst →
      BKE_collection_object_move st master dst (some src) ob = st) := by
  have hmain : (collection_object_add st dst ob false true).2 = false →
      BKE_collection_object_move st master dst (some src) ob = st := by
    intro h
    have hfail := object_add_fail h
    simp [BKE_collection_object_move, BKE_collection_object_add, hfail]
  constructor
  · intro h
    apply hmain
    by_cases h0 : (collection_object_add st dst ob false true).2 = true
    · exfalso
      simp only [BKE_collection_object_add, h0, if_true] at h
      split at h <;> simp at h
    · simpa using h0
  · intro hmem
    apply hmain
    cases hdg : st.dup_group ob with
    | none => simp [collection_object_add, hdg, hmem]
    | some dup =>
      by_cases hrec : collection_find_child_recursive st (fuelOf st) dst dup = true
      · simp [collection_object_add, hdg, hrec]
      · simp [collection_object_add, hdg, hrec, hmem]

/-- Witness for C10: object `5` is already in collection `0`, so moving
it there from collection `1` changes nothing. -/
theorem c10_witness : BKE_collection_object_move st0 0 0 (some 1) 5 = st0 :=
  (c10_move_requires_add st0 0 0 1 5).2 (by decide)

end CollectionSpec
